import Mathlib

/-!
Verification development for `builddb.py`, a web scraper that discovers
product-review articles from a paginated listing, extracts structured
records (name, price, rating, spec map) from each article page, stores
them keyed by URL, and computes aggregate statistics.

Strings from the Python program are modelled as `List Char`.  Python
floats appearing in the statistics are modelled exactly: rationals for
the mean and the residual sum, reals for the square root, `WithTop Nat`
and `WithBot Nat` for the running minimum and maximum that start from
positive and negative infinity.
-/

/-- Python regex class `\s` on byte strings: space, tab, newline,
carriage return, vertical tab, form feed. -/
def isWS (c : Char) : Bool :=
  c == ' ' || c == '\t' || c == '\n' || c == '\r' || c == '\x0b' || c == '\x0c'

/-- ASCII digit test, as used by `\d`, `\D` and `str.isdigit`. -/
def isDigitCh (c : Char) : Bool :=
  '0' ≤ c && c ≤ '9'

/-- Strip leading and trailing whitespace, as `str.strip()` does and as
`int()` and `float()` do internally. -/
def trimWS (s : List Char) : List Char :=
  ((s.dropWhile isWS).reverse.dropWhile isWS).reverse

/-- The reserved token that a literal period is escaped to before a spec
key is stored (line 72 of `builddb.py`). -/
def TOKEN : List Char := ['&', '#', '4', '6', ';']

/-- `rSpecName.replace(".", "&#46;")`: every period becomes the reserved
token (single-character pattern, so a simple character map). -/
def escapeChars : List Char → List Char
  | [] => []
  | c :: rest => if c = '.' then TOKEN ++ escapeChars rest else c :: escapeChars rest

/-- `x.replace('&#46;', '.')` (line 164 of `builddb.py`): scan left to
right; whenever the reserved token starts at the current position,
replace it by a period and continue after it, otherwise copy one
character. -/
def unescapeChars : List Char → List Char
  | '&' :: '#' :: '4' :: '6' :: ';' :: rest => '.' :: unescapeChars rest
  | c :: rest => c :: unescapeChars rest
  | [] => []

/-- Python substring test `pat in s`: some position of `s` starts with
`pat`. -/
def hasSub (pat : List Char) : List Char → Bool
  | [] => decide (pat = [])
  | c :: rest => decide (pat = List.take pat.length (c :: rest)) || hasSub pat rest

/-- Python values that the spec-value inference can produce: strings,
booleans, integers, floats (represented by their source text, which the
claims never need to interpret numerically), and lists of values. -/
inductive PyVal where
  | str : List Char → PyVal
  | bool : Bool → PyVal
  | int : Int → PyVal
  | float : List Char → PyVal
  | list : List PyVal → PyVal

/-- `str.isdigit()` on a byte string: non-empty and all ASCII digits. -/
def pyIsDigit (s : List Char) : Bool :=
  !s.isEmpty && s.all isDigitCh

/-- Numeric value of a digit string, as `int()` computes it. -/
def digitsVal (s : List Char) : Nat :=
  s.foldl (fun a c => 10 * a + (c.toNat - 48)) 0

/-- `int(str)`: strip whitespace, optional sign, then digits only. -/
def pyIntOfChars (s : List Char) : Option Int :=
  match trimWS s with
  | '+' :: ds => if pyIsDigit ds then some (digitsVal ds : Int) else none
  | '-' :: ds => if pyIsDigit ds then some (-(digitsVal ds : Int)) else none
  | ds => if pyIsDigit ds then some (digitsVal ds : Int) else none

/-- Mantissa of a float literal: digit and period characters, at most one
period, and at least one digit. -/
def mantOK (m : List Char) : Bool :=
  m.all (fun c => isDigitCh c || c == '.') &&
    decide (m.countP (fun c => c == '.') ≤ 1) && m.any isDigitCh

/-- Optional exponent part of a float literal: empty, or `e`/`E`, an
optional sign, and at least one digit. -/
def expOK : List Char → Bool
  | [] => true
  | e :: r =>
    (e == 'e' || e == 'E') &&
      (match r with
       | '+' :: ds => pyIsDigit ds
       | '-' :: ds => pyIsDigit ds
       | ds => pyIsDigit ds)

/-- Whether `float(str)` succeeds in Python 2: strip whitespace, optional
sign, then either an infinity/nan word (any case) or mantissa plus
optional exponent. -/
def pyFloatParses (s : List Char) : Bool :=
  let u := match trimWS s with
    | '+' :: r => r
    | '-' :: r => r
    | r => r
  let ul := u.map Char.toLower
  if ul = ("inf".data) || ul = ("infinity".data) || ul = ("nan".data) then true
  else
    mantOK (u.takeWhile (fun c => c != 'e' && c != 'E')) &&
      expOK (u.dropWhile (fun c => c != 'e' && c != 'E'))

/-- `re.findall("\d+", s)`: the maximal runs of ASCII digits, in order.
Implemented with an accumulator for the digit run currently being read
(in reverse). -/
def digitRunsAux (cur : List Char) : List Char → List (List Char)
  | [] => if cur.isEmpty then [] else [cur.reverse]
  | c :: rest =>
    if isDigitCh c then digitRunsAux (c :: cur) rest
    else if cur.isEmpty then digitRunsAux [] rest
    else cur.reverse :: digitRunsAux [] rest

def digitRuns (s : List Char) : List (List Char) :=
  digitRunsAux [] s

/-- The exemption set of spec names whose values are never interpreted
(line 74 of `builddb.py`). -/
def EXEMPT : List (List Char) := [("THX".data), ("Video scaling".data)]

/-- Value inference exactly as lines 74-92 of `builddb.py` perform it on
the already-escaped spec name `ename` and the raw value `raw`: exempt
names keep the raw string; then `"No"`/`"Yes"` become booleans; then a
digit-only value becomes an integer; then a successful float parse a
float; otherwise the maximal digit runs decide: none gives integer 0,
one gives that run as a string, several give the list of runs. -/
def inferSpecValue (ename raw : List Char) : PyVal :=
  if ename ∈ EXEMPT then PyVal.str raw
  else if raw = ("No".data) then PyVal.bool false
  else if raw = ("Yes".data) then PyVal.bool true
  else if pyIsDigit raw then PyVal.int (digitsVal raw : Int)
  else if pyFloatParses raw then PyVal.float raw
  else
    match digitRuns raw with
    | [] => PyVal.int 0
    | [r] => PyVal.str r
    | rs => PyVal.list (rs.map PyVal.str)

/-- Modelled from the spec, section 4.2: the ordered inference policy
stated over the unescaped spec name.  Step (a) keeps exempt raw values
verbatim; (b) maps exactly "No"/"Yes" to booleans; (c) parses digit-only
values as integers; (d) accepts float parses; (e) falls back on the
ordered maximal digit runs with the zero/one/many split, the single run
kept as a string and several runs kept as a list of strings. -/
def inferValueSpec (name raw : List Char) : PyVal :=
  if name ∈ EXEMPT then PyVal.str raw
  else if raw = ("No".data) then PyVal.bool false
  else if raw = ("Yes".data) then PyVal.bool true
  else if pyIsDigit raw then PyVal.int (digitsVal raw : Int)
  else if pyFloatParses raw then PyVal.float raw
  else
    match digitRuns raw with
    | [] => PyVal.int 0
    | [r] => PyVal.str r
    | rs => PyVal.list (rs.map PyVal.str)

/-- Case-insensitive character comparison, for patterns compiled with
`re.I`. -/
def chEqI (a b : Char) : Bool :=
  a.toLower == b.toLower

/-- Match a literal pattern case-insensitively at the head of the input;
return the remaining input on success. -/
def matchLit : List Char → List Char → Option (List Char)
  | [], s => some s
  | _ :: _, [] => none
  | p :: ps, c :: cs => if chEqI p c then matchLit ps cs else none

/-- Require one specific character at the head of the input. -/
def expectChar (c : Char) : List Char → Option (List Char)
  | [] => none
  | d :: rest => if d == c then some rest else none

/-- Attempt the article pattern of `iter_articles`,
`<h3>\s*<a href="([^"]+)">`, at the current position: on success return
the captured URL and the input after the whole match. -/
def matchArticle (s : List Char) : Option (List Char × List Char) :=
  match matchLit ("<h3>".data) s with
  | none => none
  | some a1 =>
    match matchLit ("<a href=\"".data) (a1.dropWhile isWS) with
    | none => none
    | some a3 =>
      let cap := a3.takeWhile (fun c => c != '"')
      if cap.isEmpty then none
      else
        match matchLit ("\">".data) (a3.dropWhile (fun c => c != '"')) with
        | none => none
        | some rest => some (cap, rest)

/-- `re.findall` for the article pattern: scan every position from left
to right, and on a match emit the capture and continue after the match.
The fuel argument (instantiated with the input length, which bounds the
number of scan steps) makes the recursion structural. -/
def findArticlesAux : Nat → List Char → List (List Char)
  | _, [] => []
  | 0, _ :: _ => []
  | fuel + 1, c :: rest =>
    match matchArticle (c :: rest) with
    | some (cap, r) => cap :: findArticlesAux fuel r
    | none => findArticlesAux fuel rest

def findArticles (s : List Char) : List (List Char) :=
  findArticlesAux s.length s

/-- The further-page test of line 43: `"?page=" in rDocument`. -/
def hasMarker (doc : List Char) : Bool :=
  hasSub ("?page=".data) doc

/-- The page loop of `iter_articles` (lines 31-44), with the page fetch
abstracted as a function from the page index to the fetched document:
fetch the page, yield its article URLs, and continue with the next page
index unless the document lacks the further-page marker.  The loop need
not terminate, so it is run on explicit fuel; `none` means the fuel ran
out before the loop stopped. -/
def iter_articles (fetch : Nat → List Char) : Nat → Nat → Option (List (List Char))
  | 0, _ => none
  | fuel + 1, iPage =>
    let doc := fetch iPage
    let arts := findArticles doc
    if hasMarker doc then
      (iter_articles fetch fuel (iPage + 1)).map (fun more => arts ++ more)
    else
      some arts

/-- The discovery loop terminates: some finite fuel makes it complete. -/
def discovery_terminates (fetch : Nat → List Char) : Prop :=
  ∃ fuel out, iter_articles fetch fuel 0 = some out

/-- Concatenation `f i ++ f (i+1) ++ ... ++ f (i+n)` of per-page article
lists, in page order. -/
def concatFrom (f : Nat → List (List Char)) (i : Nat) : Nat → List (List Char)
  | 0 => f i
  | n + 1 => f i ++ concatFrom f (i + 1) n

/-- `re.search`: first position, scanning left to right, where the
matcher succeeds. -/
def searchPat {α : Type} (m : List Char → Option α) : List Char → Option α
  | [] => m []
  | c :: rest =>
    match m (c :: rest) with
    | some r => some r
    | none => searchPat m rest

/-- The product-name pattern of line 49,
`<h1>\s*<span class="item">\s*<span class="fn">([^<]+)</span>`, tried at
the current position; returns the captured name. -/
def matchNameAt (s : List Char) : Option (List Char) :=
  match matchLit ("<h1>".data) s with
  | none => none
  | some a1 =>
    match matchLit ("<span class=\"item\">".data) (a1.dropWhile isWS) with
    | none => none
    | some a3 =>
      match matchLit ("<span class=\"fn\">".data) (a3.dropWhile isWS) with
      | none => none
      | some a5 =>
        let cap := a5.takeWhile (fun c => c != '<')
        if cap.isEmpty then none
        else (matchLit ("</span>".data) (a5.dropWhile (fun c => c != '<'))).map
          (fun _ => cap)

/-- The tested-at-price pattern of line 50,
`<div class="tested_at_price clear">Tested at \D+(\d+)</div>`, tried at
the current position; returns the captured digit run. -/
def matchPriceAt (s : List Char) : Option (List Char) :=
  match matchLit ("<div class=\"tested_at_price clear\">Tested at ".data) s with
  | none => none
  | some a1 =>
    let nd := a1.takeWhile (fun c => !isDigitCh c)
    if nd.isEmpty then none
    else
      let a2 := a1.dropWhile (fun c => !isDigitCh c)
      let ds := a2.takeWhile isDigitCh
      if ds.isEmpty then none
      else (matchLit ("</div>".data) (a2.dropWhile isDigitCh)).map (fun _ => ds)

/-- The rating pattern of line 51, `<span class="value">([^<]+)</span>`,
tried at the current position; returns the captured text. -/
def matchValueAt (s : List Char) : Option (List Char) :=
  match matchLit ("<span class=\"value\">".data) s with
  | none => none
  | some a1 =>
    let cap := a1.takeWhile (fun c => c != '<')
    if cap.isEmpty then none
    else (matchLit ("</span>".data) (a1.dropWhile (fun c => c != '<'))).map
      (fun _ => cap)

/-- The spec-row pattern of line 52,
`<tr[^>]*>\s*<td[^>]*>([^<]+)</td>\s*<td>\s*([^<]*?)\s*</td>\s*</tr>`,
tried at the current position; returns the label, the
whitespace-trimmed value, and the input after the whole match.  The
greedy and lazy subpatterns reduce to: skip to the closing bracket,
take the text up to the next opening bracket, trim the value. -/
def matchSpecRowAt (s : List Char) : Option (List Char × List Char × List Char) :=
  match matchLit ("<tr".data) s with
  | none => none
  | some a1 =>
    match expectChar '>' (a1.dropWhile (fun c => c != '>')) with
    | none => none
    | some a2 =>
      match matchLit ("<td".data) (a2.dropWhile isWS) with
      | none => none
      | some a4 =>
        match expectChar '>' (a4.dropWhile (fun c => c != '>')) with
        | none => none
        | some a5 =>
          let nm := a5.takeWhile (fun c => c != '<')
          if nm.isEmpty then none
          else
            match matchLit ("</td>".data) (a5.dropWhile (fun c => c != '<')) with
            | none => none
            | some a6 =>
              match matchLit ("<td>".data) (a6.dropWhile isWS) with
              | none => none
              | some a8 =>
                let v := trimWS (a8.takeWhile (fun c => c != '<'))
                match matchLit ("</td>".data) (a8.dropWhile (fun c => c != '<')) with
                | none => none
                | some a9 =>
                  match matchLit ("</tr>".data) (a9.dropWhile isWS) with
                  | none => none
                  | some a11 => some (nm, v, a11)

/-- `re.finditer` for the spec-row pattern, with the same length-bounded
fuel scheme as `findArticlesAux`. -/
def parseSpecRowsAux : Nat → List Char → List (List Char × List Char)
  | _, [] => []
  | 0, _ :: _ => []
  | fuel + 1, c :: rest =>
    match matchSpecRowAt (c :: rest) with
    | some (nm, v, r) => (nm, v) :: parseSpecRowsAux fuel r
    | none => parseSpecRowsAux fuel rest

def parseSpecRows (s : List Char) : List (List Char × List Char) :=
  parseSpecRowsAux s.length s

/-- A stored article record: URL, product name, tested-at price, rating,
and the spec dictionary (association list with unique keys). -/
structure Record where
  url : List Char
  name : List Char
  price : Nat
  rating : Int
  spec : List (List Char × PyVal)

/-- Python dict assignment `d[k] = v`: replace the value when the key is
present, append the entry otherwise. -/
def dictInsert (d : List (List Char × PyVal)) (k : List Char) (v : PyVal) :
    List (List Char × PyVal) :=
  if d.any (fun kv => kv.1 == k) then
    d.map (fun kv => if kv.1 == k then (k, v) else kv)
  else d ++ [(k, v)]

/-- Dict lookup: value of the first (and, for dicts, only) entry with
the given key. -/
def lookupD (d : List (List Char × PyVal)) (k : List Char) : Option PyVal :=
  (d.find? (fun kv => kv.1 == k)).map Prod.snd

/-- One iteration of the spec loop (lines 68-93): escape the label and
assign the inferred value under the escaped key. -/
def specStep (d : List (List Char × PyVal)) (row : List Char × List Char) :
    List (List Char × PyVal) :=
  dictInsert d (escapeChars row.1) (inferSpecValue (escapeChars row.1) row.2)

/-- The spec dictionary built from the parsed rows in document order. -/
def buildSpec (rows : List (List Char × List Char)) : List (List Char × PyVal) :=
  rows.foldl specStep []

/-- `extract_article_data` (lines 47-97) on an already fetched detail
document: locate the three required fields with first-match searches,
parse the rating with `int()`, and build the spec dictionary.  Any
failure (in Python, an attribute or value error) aborts the whole
extraction, producing `none` and no partial record. -/
def extract_article_data (url doc : List Char) : Option Record :=
  match searchPat matchNameAt doc with
  | none => none
  | some nm =>
    match searchPat matchPriceAt doc with
    | none => none
    | some pds =>
      match searchPat matchValueAt doc with
      | none => none
      | some rts =>
        match pyIntOfChars rts with
        | none => none
        | some rt =>
          some { url := url, name := nm, price := digitsVal pds, rating := rt,
                 spec := buildSpec (parseSpecRows doc) }

/-- One iteration of `build_db` (lines 103-109): skip a URL present in
the store (matching-document count exactly one), otherwise extract and
insert.  Extraction (which fetches over the network) is abstracted as a
function from the URL to the record. -/
def build_step (extract : List Char → Record) (st : List Record) (u : List Char) :
    List Record :=
  if st.countP (fun r => r.url == u) = 1 then st else st ++ [extract u]

/-- `build_db`: process every discovered URL in order. -/
def build_db (extract : List Char → Record) (urls : List (List Char))
    (store : List Record) : List Record :=
  urls.foldl (build_step extract) store

/-- The gate in `main` (lines 259-260): build only when the collection
count is zero. -/
def main_build (extract : List Char → Record) (urls : List (List Char))
    (store : List Record) : List Record :=
  if store.length = 0 then build_db extract urls store else store

/-- Distinct ratings of the corpus, in first-appearance order (the model
of the `$group` key set of `price_spread_by_rating`). -/
def distinctRatings (records : List Record) : List Int :=
  records.foldl (fun acc r => if r.rating ∈ acc then acc else acc ++ [r.rating]) []

/-- Prices pushed for one rating group by the `$group`/`$push` stage. -/
def pricesOf (records : List Record) (rt : Int) : List Nat :=
  (records.filter (fun r => r.rating == rt)).map (fun r => r.price)

/-- The mean computed by lines 122-127: total divided by count, in exact
float arithmetic (rationals). -/
def price_mean (prices : List Nat) : ℚ :=
  ((prices.map (fun p => (p : ℚ))).sum) / (prices.length : ℚ)

/-- The residual sum of line 138: sum of squared deviations from the
mean. -/
def price_residual (prices : List Nat) : ℚ :=
  (prices.map (fun p => ((p : ℚ) - price_mean prices) ^ 2)).sum

/-- Line 139 exactly as written:
`fStandardDeviation = math.sqrt(fResidual) / fCount`, the square root of
the residual sum divided by the count. -/
noncomputable def price_stddev (prices : List Nat) : ℝ :=
  Real.sqrt ((price_residual prices : ℚ) : ℝ) / (prices.length : ℝ)

/-- One step of the running-minimum loop of lines 134-135, with the
float initial value `+inf` modelled by the top of `WithTop Nat`. -/
def stepMin (m : WithTop Nat) (p : Nat) : WithTop Nat :=
  if (p : WithTop Nat) < m then (p : WithTop Nat) else m

/-- One step of the running-maximum loop of lines 136-137, with `-inf`
modelled by the bottom of `WithBot Nat`. -/
def stepMax (m : WithBot Nat) (p : Nat) : WithBot Nat :=
  if m < (p : WithBot Nat) then (p : WithBot Nat) else m

def groupMin (prices : List Nat) : WithTop Nat :=
  prices.foldl stepMin ⊤

def groupMax (prices : List Nat) : WithBot Nat :=
  prices.foldl stepMax ⊥

/-- `price_spread_by_rating` (lines 112-142): for each rating group, the
printed row (rating, mean, min, max, reported standard deviation). -/
noncomputable def price_spread_by_rating (records : List Record) :
    List (Int × ℚ × WithTop Nat × WithBot Nat × ℝ) :=
  (distinctRatings records).map (fun rt =>
    (rt, price_mean (pricesOf records rt), groupMin (pricesOf records rt),
      groupMax (pricesOf records rt), price_stddev (pricesOf records rt)))

/-- `get_price_range` (lines 190-199): the aggregation result holds one
document with the min and max price when the corpus is non-empty and no
document at all when it is empty, in which case indexing `[0]` raises an
index error. -/
def get_price_range (records : List Record) : Except (List Char) (Nat × Nat) :=
  match records.map (fun r => r.price) with
  | [] => Except.error ("IndexError".data)
  | p :: ps => Except.ok (ps.foldl Nat.min p, ps.foldl Nat.max p)

/-- All spec keys emitted by the map phase of `find_distinct_specs`, one
per key per document. -/
def allSpecKeys (records : List Record) : List (List Char) :=
  records.foldr (fun r acc => r.spec.map Prod.fst ++ acc) []

/-- Distinct members of a key list, in first-appearance order. -/
def distinctKeys (l : List (List Char)) : List (List Char) :=
  l.foldl (fun acc k => if k ∈ acc then acc else acc ++ [k]) []

/-- `find_distinct_specs` (lines 145-165): the distinct emitted keys,
each unescaped back to its literal form. -/
def find_distinct_specs (records : List Record) : List (List Char) :=
  (distinctKeys (allSpecKeys records)).map unescapeChars

/-- The scope constant of the histogram map function (line 214). -/
def BANDWIDTH : Nat := 500

/-- The bucket computed by the map function of lines 203-214:
`Math.ceil(this.price / BANDWIDTH) * BANDWIDTH`, in exact arithmetic. -/
def bucketOf (w p : Nat) : Int :=
  Int.ceil ((p : ℚ) / (w : ℚ)) * (w : Int)

/-- `calc_rating_price_frequency` (lines 202-249): emit
`((rating, bucket), 1)` per document and sum the values per key; the
inline map-reduce output is modelled as the total-per-key function,
absent keys having total zero. -/
def calc_rating_price_frequency (records : List Record) : Int × Int → Nat :=
  fun key =>
    let ems := records.map (fun r : Record => ((r.rating, bucketOf BANDWIDTH r.price), (1 : Nat)))
    ((ems.filter (fun e => decide (e.1 = key))).map (fun e => e.2)).sum

-- ---------------------------------------------------------------------
-- Concrete fixtures used by witnesses and counterexamples
-- ---------------------------------------------------------------------

/-- Page-0 fixture: one article URL and the further-page marker. -/
def doc0 : List Char := ("<h3><a href=\"u1\">x ?page=").data

/-- Page-1 fixture: one article URL, no further-page marker. -/
def doc1 : List Char := ("<h3> <a href=\"u2\">ok").data

/-- Two-page fetcher fixture: page 0 has the marker, page 1 does not. -/
def fetchW : Nat → List Char :=
  fun n => if n = 0 then doc0 else doc1

/-- A fetcher whose page documents never contain the marker. -/
def emptyFetch : Nat → List Char :=
  fun _ => []

/-- A fetcher whose every page document contains the marker. -/
def allMarkerFetch : Nat → List Char :=
  fun _ => ("?page=").data

/-- A detail document with all three required fields and two spec rows
sharing the label `A`. -/
def docW : List Char :=
  ("<h1><span class=\"item\"><span class=\"fn\">AVR</span>" ++
   "<div class=\"tested_at_price clear\">Tested at $500</div>" ++
   "<span class=\"value\">5</span>" ++
   "<tr><td>A</td><td>1</td></tr><tr><td>A</td><td>2</td></tr>").data

/-- The record that `extract_article_data` produces from `docW`. -/
def recW : Record :=
  { url := ("u".data), name := ("AVR".data), price := 500, rating := 5,
    spec := [(("A".data), PyVal.int 2)] }

/-- Three records sharing rating 5 with prices 100, 200, 300. -/
def c1recs : List Record :=
  [{ url := ("u1".data), name := ("a".data), price := 100, rating := 5, spec := [] },
   { url := ("u2".data), name := ("b".data), price := 200, rating := 5, spec := [] },
   { url := ("u3".data), name := ("c".data), price := 300, rating := 5, spec := [] }]

/-- A one-record store fixture for the idempotence witness. -/
def recW0 : Record :=
  { url := ("u".data), name := ("n".data), price := 100, rating := 5, spec := [] }

/-- An extraction stub used by the idempotence witness. -/
def extractW : List Char → Record :=
  fun _ => recW0

-- ---------------------------------------------------------------------
-- Helper lemmas about escaping
-- ---------------------------------------------------------------------

theorem escapeChars_of_no_dot (l : List Char) (h : '.' ∉ l) : escapeChars l = l := by
  induction l with
  | nil => rfl
  | cons c rest ih =>
    have hc : c ≠ '.' := fun hc => h (hc ▸ List.mem_cons_self c rest)
    have hr : '.' ∉ rest := fun hr => h (List.mem_cons_of_mem c hr)
    simp [escapeChars, hc, ih hr]

theorem escapeChars_eq_self_of_no_amp (l : List Char) (h : '&' ∉ escapeChars l) :
    escapeChars l = l := by
  induction l with
  | nil => rfl
  | cons c rest ih =>
    by_cases hc : c = '.'
    · exfalso
      apply h
      subst hc
      simp [escapeChars, TOKEN]
    · rw [escapeChars, if_neg hc] at h ⊢
      have hr : '&' ∉ escapeChars rest := fun hr => h (List.mem_cons_of_mem c hr)
      rw [ih hr]

theorem escape_take_eq (p : List Char) (hp : '&' ∉ p) :
    ∀ rest : List Char, List.take p.length (escapeChars rest) = p →
      List.take p.length rest = p := by
  induction p with
  | nil => intro rest _; rfl
  | cons q p' ih =>
    intro rest h
    have hq : q ≠ '&' := fun hq => hp (hq ▸ List.mem_cons_self q p')
    have hp' : '&' ∉ p' := fun hm => hp (List.mem_cons_of_mem q hm)
    cases rest with
    | nil => simp [escapeChars] at h
    | cons a t =>
      by_cases ha : a = '.'
      · subst ha
        rw [escapeChars, if_pos rfl] at h
        simp [TOKEN, List.take_succ_cons] at h
        exact absurd h.1.symm hq
      · rw [escapeChars, if_neg ha] at h
        simp only [List.length_cons, List.take_succ_cons, List.cons.injEq] at h ⊢
        exact ⟨h.1, ih hp' t h.2⟩

theorem roundtrip_aux (l : List Char) (h : hasSub TOKEN l = false) :
    unescapeChars (escapeChars l) = l := by
  induction l with
  | nil => rfl
  | cons c rest ih =>
    have h1 : TOKEN ≠ List.take TOKEN.length (c :: rest) := by
      intro heq
      rw [hasSub, heq] at h
      simp at h
    have h2 : hasSub TOKEN rest = false := by
      rw [hasSub] at h
      exact (Bool.or_eq_false_iff.mp h).2
    by_cases hc : c = '.'
    · subst hc
      rw [escapeChars, if_pos rfl]
      show unescapeChars ('&' :: '#' :: '4' :: '6' :: ';' :: escapeChars rest) = '.' :: rest
      rw [unescapeChars, ih h2]
    · rw [escapeChars, if_neg hc]
      have hne : List.take 5 (c :: escapeChars rest) ≠ TOKEN := by
        intro heq
        rw [List.take_succ_cons] at heq
        rw [show TOKEN = '&' :: ['#', '4', '6', ';'] from rfl] at heq
        obtain ⟨hcamp, htail⟩ := List.cons.injEq _ _ _ _ ▸ heq
        have hrest := escape_take_eq ['#', '4', '6', ';'] (by decide) rest htail
        apply h1
        subst hcamp
        exact congrArg (List.cons '&') hrest.symm
      -- with no token at the head, unescape copies the head character
      have hstep : unescapeChars (c :: escapeChars rest) = c :: unescapeChars (escapeChars rest) := by
        rw [unescapeChars.eq_def]
        split
        · rename_i rest' heq
          exact absurd (by rw [heq]; rfl) hne
        · rename_i c' rest' _ _ heq
          obtain ⟨hc', hrest'⟩ := List.cons.injEq _ _ _ _ ▸ heq
          rw [hc', hrest']
        · rename_i heq
          exact absurd heq (List.cons_ne_nil _ _)
      rw [hstep, ih h2]

theorem escapeChars_mem_exempt_iff (name : List Char) :
    escapeChars name ∈ EXEMPT ↔ name ∈ EXEMPT := by
  constructor
  · intro h
    simp only [EXEMPT, List.mem_cons, List.not_mem_nil, or_false] at h ⊢
    rcases h with h | h
    · have hamp : '&' ∉ escapeChars name := by rw [h]; decide
      exact Or.inl ((escapeChars_eq_self_of_no_amp name hamp).symm.trans h)
    · have hamp : '&' ∉ escapeChars name := by rw [h]; decide
      exact Or.inr ((escapeChars_eq_self_of_no_amp name hamp).symm.trans h)
  · intro h
    simp only [EXEMPT, List.mem_cons, List.not_mem_nil, or_false] at h ⊢
    rcases h with h | h
    · subst h
      exact Or.inl (escapeChars_of_no_dot _ (by decide))
    · subst h
      exact Or.inr (escapeChars_of_no_dot _ (by decide))

/-- Claim C2: for every (specName, rawValue) pair from a specification
row, the value computed by the extraction loop (which escapes the name
and then applies lines 74-92 of `builddb.py`) equals the result of the
ordered inference policy of the spec, stated over the unescaped name:
exemption set first, then "No"/"Yes" booleans, then digit-only integers,
then float parses, then the digit-run fallback with the zero/one/many
split. -/
theorem c2_type_inference_matches_policy (name raw : List Char) :
    inferSpecValue (escapeChars name) raw = inferValueSpec name raw := by
  unfold inferSpecValue inferValueSpec
  exact if_congr (escapeChars_mem_exempt_iff name) rfl rfl

/-- Claim C4, counterexample: the key consisting of the reserved token
followed by a period contains a period, yet escaping and then
unescaping it yields two periods, not the original key. -/
theorem c4_roundtrip_counterexample :
    '.' ∈ ['&', '#', '4', '6', ';', '.'] ∧
      unescapeChars (escapeChars ['&', '#', '4', '6', ';', '.']) ≠
        ['&', '#', '4', '6', ';', '.'] := by
  decide

/-- Claim C4 as amended: for every spec key containing a literal period
and not containing the reserved token as a substring, applying the
storage escaping followed by the reporting unescaping returns the
original key exactly. -/
theorem c4_roundtrip_token_free (k : List Char) (hdot : '.' ∈ k)
    (htok : hasSub TOKEN k = false) :
    unescapeChars (escapeChars k) = k :=
  roundtrip_aux k htok

theorem c4_roundtrip_witness :
    ('.' ∈ ['a', '.', 'b']) ∧ hasSub TOKEN ['a', '.', 'b'] = false ∧
      unescapeChars (escapeChars ['a', '.', 'b']) = ['a', '.', 'b'] :=
  ⟨by decide, by decide, c4_roundtrip_token_free ['a', '.', 'b'] (by decide) (by decide)⟩

-- ---------------------------------------------------------------------
-- Pagination lemmas
-- ---------------------------------------------------------------------

theorem iter_run (N : Nat) : ∀ (fetch : Nat → List Char) (i fuel : Nat),
    (∀ j, j < N → hasMarker (fetch (i + j)) = true) →
    hasMarker (fetch (i + N)) = false → N < fuel →
    iter_articles fetch fuel i =
      some (concatFrom (fun j => findArticles (fetch j)) i N) := by
  induction N with
  | zero =>
    intro fetch i fuel _ h2 h3
    cases fuel with
    | zero => omega
    | succ m =>
      simp only [iter_articles]
      simp only [Nat.add_zero] at h2
      rw [if_neg (by simp [h2])]
      rfl
  | succ N ih =>
    intro fetch i fuel h1 h2 h3
    cases fuel with
    | zero => omega
    | succ m =>
      simp only [iter_articles]
      have hm : hasMarker (fetch i) = true := by
        have := h1 0 (Nat.succ_pos N)
        simpa using this
      rw [if_pos hm]
      have hrec := ih fetch (i + 1) m
        (fun j hj => by
          have := h1 (j + 1) (Nat.succ_lt_succ hj)
          have e : i + (j + 1) = i + 1 + j := by omega
          rw [e] at this
          exact this)
        (by
          have e : i + (N + 1) = i + 1 + N := by omega
          rw [e] at h2
          exact h2)
        (Nat.lt_of_succ_lt_succ h3)
      rw [hrec]
      rfl

theorem iter_agree : ∀ (fuel : Nat) (g g' : Nat → List Char) (i : Nat),
    (∀ j, j < fuel → g' (i + j) = g (i + j)) →
    iter_articles g' fuel i = iter_articles g fuel i := by
  intro fuel
  induction fuel with
  | zero => intro g g' i _; rfl
  | succ m ih =>
    intro g g' i h
    have h0 : g' i = g i := by
      have := h 0 (Nat.succ_pos m)
      simpa using this
    simp only [iter_articles, h0]
    have hrec := ih g g' (i + 1) (fun j hj => by
      have := h (j + 1) (Nat.succ_lt_succ hj)
      have e : i + (j + 1) = i + 1 + j := by omega
      rw [e] at this
      exact this)
    rw [hrec]

theorem concatFrom_congr (f g : Nat → List (List Char)) : ∀ (n i : Nat),
    (∀ j, i ≤ j → j ≤ i + n → f j = g j) →
    concatFrom f i n = concatFrom g i n := by
  intro n
  induction n with
  | zero =>
    intro i h
    simp only [concatFrom]
    exact h i le_rfl (by omega)
  | succ n ih =>
    intro i h
    simp only [concatFrom]
    rw [h i le_rfl (by omega), ih (i + 1) (fun j hj1 hj2 => h j (by omega) (by omega))]

theorem allMarker_none : ∀ (fuel i : Nat), iter_articles allMarkerFetch fuel i = none := by
  intro fuel
  induction fuel with
  | zero => intro i; rfl
  | succ m ih =>
    intro i
    have hm : hasMarker (allMarkerFetch i) = true := by
      show hasMarker (("?page=").data) = true
      decide
    simp only [iter_articles]
    rw [if_pos hm, ih]
    rfl

theorem iter_stops : ∀ (fuel : Nat) (fetch : Nat → List Char) (i : Nat),
    (∃ j, j < fuel ∧ hasMarker (fetch (i + j)) = false) →
    ∃ out, iter_articles fetch fuel i = some out := by
  intro fuel
  induction fuel with
  | zero =>
    intro fetch i h
    obtain ⟨j, hj, _⟩ := h
    omega
  | succ m ih =>
    intro fetch i h
    obtain ⟨j, hj, hjm⟩ := h
    by_cases hm : hasMarker (fetch i) = true
    · have hj0 : j ≠ 0 := by
        intro h0
        subst h0
        simp only [Nat.add_zero] at hjm
        rw [hm] at hjm
        exact Bool.noConfusion hjm
      obtain ⟨out, hout⟩ := ih fetch (i + 1)
        ⟨j - 1, by omega, by
          have e : i + 1 + (j - 1) = i + j := by omega
          rw [e]
          exact hjm⟩
      refine ⟨findArticles (fetch i) ++ out, ?_⟩
      simp only [iter_articles]
      rw [if_pos hm, hout]
      rfl
    · refine ⟨findArticles (fetch i), ?_⟩
      simp only [iter_articles]
      rw [if_neg hm]

/-- Claim C5: the discovery loop yields the article URLs of each page in
document order, stops exactly when the fetched document lacks the
further-page marker (continuing otherwise even with zero articles), and
its output does not depend on pages past the first marker-free one, so
for a two-page fixture no third page is ever fetched. -/
theorem c5_pagination (fetch : Nat → List Char) (N fuel : Nat)
    (h1 : ∀ j, j < N → hasMarker (fetch j) = true)
    (h2 : hasMarker (fetch N) = false) (h3 : N < fuel) :
    iter_articles fetch fuel 0 =
      some (concatFrom (fun j => findArticles (fetch j)) 0 N) ∧
    (∀ fetch' : Nat → List Char, (∀ j, j ≤ N → fetch' j = fetch j) →
      iter_articles fetch' fuel 0 =
        some (concatFrom (fun j => findArticles (fetch j)) 0 N)) ∧
    (∀ (g : Nat → List Char) (i m : Nat), hasMarker (g i) = true →
      iter_articles g (m + 1) i =
        (iter_articles g m (i + 1)).map (fun more => findArticles (g i) ++ more)) ∧
    (∀ (g : Nat → List Char) (i m : Nat), hasMarker (g i) = false →
      iter_articles g (m + 1) i = some (findArticles (g i))) := by
  refine ⟨?_, ?_, ?_, ?_⟩
  · have := iter_run N fetch 0 fuel (fun j hj => by simpa using h1 j hj)
      (by simpa using h2) h3
    exact this
  · intro fetch' hag
    have hrun := iter_run N fetch' 0 fuel
      (fun j hj => by
        have e := hag j (le_of_lt hj)
        simpa [e] using h1 j hj)
      (by
        have e := hag N le_rfl
        simpa [e] using h2)
      h3
    rw [hrun]
    have hcg := concatFrom_congr (fun j => findArticles (fetch' j))
      (fun j => findArticles (fetch j)) N 0
      (fun j hj1 hj2 => by
        show findArticles (fetch' j) = findArticles (fetch j)
        rw [hag j (by omega)])
    rw [hcg]
  · intro g i m hg
    simp only [iter_articles]
    rw [if_pos hg]
  · intro g i m hg
    simp only [iter_articles]
    rw [if_neg (by simp [hg])]

theorem c5_pagination_witness :
    iter_articles fetchW 2 0 = some [("u1".data), ("u2".data)] := by
  have h := (c5_pagination fetchW 1 2 (by decide) (by decide) (by decide)).1
  rw [h]
  decide

/-- Claim C9, counterexample: a fetcher whose every page contains the
further-page marker makes the discovery loop run forever, so the yielded
sequence is not finite for every input. -/
theorem c9_nontermination_counterexample : ¬ discovery_terminates allMarkerFetch := by
  rintro ⟨fuel, out, hout⟩
  rw [allMarker_none fuel 0] at hout
  exact Option.noConfusion hout

/-- Claim C9 as amended: the discovery loop terminates, with a finite
yielded sequence, whenever the fetched document of some page lacks the
further-page marker. -/
theorem c9_termination_condition (fetch : Nat → List Char) (N : Nat)
    (h : hasMarker (fetch N) = false) : discovery_terminates fetch := by
  obtain ⟨out, hout⟩ := iter_stops (N + 1) fetch 0 ⟨N, Nat.lt_succ_self N, by simpa using h⟩
  exact ⟨N + 1, out, hout⟩

theorem c9_termination_witness : discovery_terminates emptyFetch :=
  c9_termination_condition emptyFetch 0 (by decide)

/-- Claim C8: if any of the three required fields is absent (or, for the
rating, not parsable as an integer), extraction fails as a whole and no
partial record is produced. -/
theorem c8_extract_requires_fields (url doc : List Char)
    (h : searchPat matchNameAt doc = none ∨ searchPat matchPriceAt doc = none ∨
      (searchPat matchValueAt doc).bind pyIntOfChars = none) :
    extract_article_data url doc = none := by
  unfold extract_article_data
  rcases h with h | h | h
  · rw [h]
  · cases hA : searchPat matchNameAt doc with
    | none => rfl
    | some nm => rw [h]
  · cases hA : searchPat matchNameAt doc with
    | none => rfl
    | some nm =>
      cases hB : searchPat matchPriceAt doc with
      | none => rfl
      | some pds =>
        cases hC : searchPat matchValueAt doc with
        | none => rfl
        | some rts =>
          rw [hC] at h
          have h' : pyIntOfChars rts = none := h
          show (match pyIntOfChars rts with
            | none => none
            | some rt =>
              some { url := url, name := nm, price := digitsVal pds, rating := rt,
                     spec := buildSpec (parseSpecRows doc) } : Option Record) = none
          rw [h']

theorem c8_extract_requires_fields_witness :
    extract_article_data [] [] = none :=
  c8_extract_requires_fields [] [] (Or.inl rfl)

-- ---------------------------------------------------------------------
-- Dictionary lemmas for the spec map
-- ---------------------------------------------------------------------

theorem find?_cons_pos {α : Type} (p : α → Bool) (a : α) (l : List α) (h : p a = true) :
    List.find? p (a :: l) = some a := by
  simp [List.find?, h]

theorem find?_cons_neg {α : Type} (p : α → Bool) (a : α) (l : List α) (h : p a = false) :
    List.find? p (a :: l) = List.find? p l := by
  simp [List.find?, h]

theorem filter_cons_pos {α : Type} (p : α → Bool) (a : α) (l : List α) (h : p a = true) :
    List.filter p (a :: l) = a :: List.filter p l := by
  simp [List.filter, h]

theorem filter_cons_neg {α : Type} (p : α → Bool) (a : α) (l : List α) (h : p a = false) :
    List.filter p (a :: l) = List.filter p l := by
  simp [List.filter, h]

theorem find?_cons_none {α : Type} (p : α → Bool) (a : α) (l : List α)
    (h : List.find? p (a :: l) = none) : p a = false ∧ List.find? p l = none := by
  cases hpa : p a with
  | true =>
    rw [find?_cons_pos p a l hpa] at h
    exact Option.noConfusion h
  | false =>
    rw [find?_cons_neg p a l hpa] at h
    exact ⟨rfl, h⟩

theorem lookupD_map_self (d : List (List Char × PyVal)) (k : List Char) (v : PyVal)
    (hany : d.any (fun kv => kv.1 == k) = true) :
    lookupD (d.map (fun kv => if kv.1 == k then (k, v) else kv)) k = some v := by
  induction d with
  | nil => simp at hany
  | cons kv d' ih =>
    simp only [List.map_cons]
    by_cases hkv : (kv.1 == k) = true
    · rw [if_pos hkv]
      unfold lookupD
      rw [find?_cons_pos (fun kv : List Char × PyVal => kv.1 == k) (k, v) _ (by simp)]
      rfl
    · rw [if_neg hkv]
      unfold lookupD
      rw [find?_cons_neg (fun kv : List Char × PyVal => kv.1 == k) kv _ (by simpa using hkv)]
      have hany' : d'.any (fun kv => kv.1 == k) = true := by
        simp only [List.any_cons, hkv, Bool.false_or] at hany
        exact hany
      exact ih hany'

theorem lookupD_map_other (d : List (List Char × PyVal)) (q k : List Char) (v : PyVal)
    (h : (q == k) = false) :
    lookupD (d.map (fun kv => if kv.1 == q then (q, v) else kv)) k = lookupD d k := by
  induction d with
  | nil => rfl
  | cons kv d' ih =>
    simp only [List.map_cons]
    by_cases hkv : (kv.1 == q) = true
    · rw [if_pos hkv]
      have hkvq : kv.1 = q := eq_of_beq hkv
      by_cases hk : (kv.1 == k) = true
      · exfalso
        rw [hkvq] at hk
        rw [hk] at h
        exact Bool.noConfusion h
      · unfold lookupD
        rw [find?_cons_neg (fun kv : List Char × PyVal => kv.1 == k) (q, v)
          (d'.map (fun kv => if kv.1 == q then (q, v) else kv)) (by simpa using h)]
        rw [find?_cons_neg (fun kv : List Char × PyVal => kv.1 == k) kv d' (by simpa using hk)]
        exact ih
    · rw [if_neg hkv]
      by_cases hk : (kv.1 == k) = true
      · unfold lookupD
        rw [find?_cons_pos (fun kv : List Char × PyVal => kv.1 == k) kv
          (d'.map (fun kv => if kv.1 == q then (q, v) else kv)) hk]
        rw [find?_cons_pos (fun kv : List Char × PyVal => kv.1 == k) kv d' hk]
      · unfold lookupD
        rw [find?_cons_neg (fun kv : List Char × PyVal => kv.1 == k) kv
          (d'.map (fun kv => if kv.1 == q then (q, v) else kv)) (by simpa using hk)]
        rw [find?_cons_neg (fun kv : List Char × PyVal => kv.1 == k) kv d' (by simpa using hk)]
        exact ih

theorem lookupD_append_single_other (d : List (List Char × PyVal)) (q k : List Char)
    (v : PyVal) (h : (q == k) = false) :
    lookupD (d ++ [(q, v)]) k = lookupD d k := by
  induction d with
  | nil =>
    unfold lookupD
    rw [List.nil_append]
    rw [find?_cons_neg (fun kv : List Char × PyVal => kv.1 == k) (q, v) [] (by simpa using h)]
  | cons kv d' ih =>
    rw [List.cons_append]
    by_cases hkv : (kv.1 == k) = true
    · unfold lookupD
      rw [find?_cons_pos (fun kv : List Char × PyVal => kv.1 == k) kv (d' ++ [(q, v)]) hkv]
      rw [find?_cons_pos (fun kv : List Char × PyVal => kv.1 == k) kv d' hkv]
    · unfold lookupD
      rw [find?_cons_neg (fun kv : List Char × PyVal => kv.1 == k) kv (d' ++ [(q, v)]) (by simpa using hkv)]
      rw [find?_cons_neg (fun kv : List Char × PyVal => kv.1 == k) kv d' (by simpa using hkv)]
      exact ih

theorem lookupD_append_single_self :
    ∀ (d : List (List Char × PyVal)) (k : List Char) (v : PyVal),
    List.find? (fun kv => kv.1 == k) d = none → lookupD (d ++ [(k, v)]) k = some v := by
  intro d
  induction d with
  | nil =>
    intro k v _
    unfold lookupD
    rw [List.nil_append]
    rw [find?_cons_pos (fun kv : List Char × PyVal => kv.1 == k) (k, v) [] (by simp)]
    rfl
  | cons kv d' ih =>
    intro k v hnone
    obtain ⟨hkv, hnone'⟩ :=
      find?_cons_none (fun kv : List Char × PyVal => kv.1 == k) kv d' hnone
    rw [List.cons_append]
    unfold lookupD
    rw [find?_cons_neg (fun kv : List Char × PyVal => kv.1 == k) kv _ hkv]
    exact ih k v hnone'

theorem lookupD_dictInsert_self (d : List (List Char × PyVal)) (k : List Char) (v : PyVal) :
    lookupD (dictInsert d k v) k = some v := by
  unfold dictInsert
  by_cases hany : d.any (fun kv => kv.1 == k) = true
  · rw [if_pos hany]
    exact lookupD_map_self d k v hany
  · rw [if_neg hany]
    apply lookupD_append_single_self
    rw [List.find?_eq_none]
    intro kv hkv hbeq
    exact hany (List.any_eq_true.mpr ⟨kv, hkv, hbeq⟩)

theorem lookupD_dictInsert_other (d : List (List Char × PyVal)) (q k : List Char)
    (v : PyVal) (h : (q == k) = false) :
    lookupD (dictInsert d q v) k = lookupD d k := by
  unfold dictInsert
  by_cases hany : d.any (fun kv => kv.1 == q) = true
  · rw [if_pos hany]
    exact lookupD_map_other d q k v h
  · rw [if_neg hany]
    exact lookupD_append_single_other d q k v h

theorem countP_map_keys (d : List (List Char × PyVal)) (q k : List Char) (v : PyVal) :
    List.countP (fun kv => kv.1 == k) (d.map (fun kv => if kv.1 == q then (q, v) else kv)) =
      List.countP (fun kv => kv.1 == k) d := by
  induction d with
  | nil => rfl
  | cons kv d' ih =>
    simp only [List.map_cons, List.countP_cons, ih]
    congr 1
    by_cases hkv : (kv.1 == q) = true
    · rw [if_pos hkv]
      have hq : kv.1 = q := eq_of_beq hkv
      simp [hq]
    · rw [if_neg hkv]

theorem countP_dictInsert (d : List (List Char × PyVal)) (q k : List Char) (v : PyVal) :
    List.countP (fun kv => kv.1 == k) (dictInsert d q v) =
      if d.any (fun kv => kv.1 == q) = true then List.countP (fun kv => kv.1 == k) d
      else List.countP (fun kv => kv.1 == k) d + (if (q == k) = true then 1 else 0) := by
  unfold dictInsert
  by_cases hany : d.any (fun kv => kv.1 == q) = true
  · rw [if_pos hany, if_pos hany]
    exact countP_map_keys d q k v
  · rw [if_neg hany, if_neg hany]
    rw [List.countP_append]
    congr 1
    simp [List.countP_cons]

theorem any_iff_countP (d : List (List Char × PyVal)) (p : List Char × PyVal → Bool) :
    d.any p = true ↔ List.countP p d ≠ 0 := by
  constructor
  · intro h hzero
    obtain ⟨x, hx, hpx⟩ := List.any_eq_true.mp h
    rw [List.countP_eq_zero] at hzero
    exact (hzero x hx) hpx
  · intro h
    cases hany : d.any p with
    | true => rfl
    | false =>
      exfalso
      apply h
      rw [List.countP_eq_zero]
      intro x hx hpx
      have hT : d.any p = true := List.any_eq_true.mpr ⟨x, hx, hpx⟩
      rw [hany] at hT
      exact Bool.noConfusion hT

theorem countP_specStep (d : List (List Char × PyVal)) (row : List Char × List Char)
    (k : List Char) :
    List.countP (fun kv => kv.1 == k) (specStep d row) =
      if (escapeChars row.1 == k) = true then
        (if List.countP (fun kv => kv.1 == k) d = 0 then 1
         else List.countP (fun kv => kv.1 == k) d)
      else List.countP (fun kv => kv.1 == k) d := by
  unfold specStep
  rw [countP_dictInsert]
  by_cases hk : (escapeChars row.1 == k) = true
  · have hkeq : escapeChars row.1 = k := eq_of_beq hk
    subst hkeq
    by_cases hz : List.countP (fun kv => kv.1 == escapeChars row.1) d = 0
    · have hanyF : ¬(d.any (fun kv => kv.1 == escapeChars row.1) = true) := by
        rw [any_iff_countP]
        intro hne
        exact hne hz
      rw [if_neg hanyF, if_pos (beq_self_eq_true (escapeChars row.1)),
        if_pos (beq_self_eq_true (escapeChars row.1)), if_pos hz, hz]
    · have hanyT : d.any (fun kv => kv.1 == escapeChars row.1) = true :=
        (any_iff_countP d _).mpr hz
      rw [if_pos hanyT, if_pos (beq_self_eq_true (escapeChars row.1)), if_neg hz]
  · rw [if_neg hk, if_neg hk]
    by_cases hany : d.any (fun kv => kv.1 == escapeChars row.1) = true
    · rw [if_pos hany]
    · rw [if_neg hany]
      omega

theorem countP_buildSpec_fold :
    ∀ (rows : List (List Char × List Char)) (d : List (List Char × PyVal)) (k : List Char),
    List.countP (fun kv => kv.1 == k) (rows.foldl specStep d) =
      if rows.any (fun row => escapeChars row.1 == k) = true then
        (if List.countP (fun kv => kv.1 == k) d = 0 then 1
         else List.countP (fun kv => kv.1 == k) d)
      else List.countP (fun kv => kv.1 == k) d := by
  intro rows
  induction rows with
  | nil => intro d k; simp
  | cons row rows ih =>
    intro d k
    rw [List.foldl_cons, ih (specStep d row) k, countP_specStep]
    by_cases hrow : (escapeChars row.1 == k) = true <;>
      by_cases hz : List.countP (fun kv => kv.1 == k) d = 0 <;>
      by_cases hany : rows.any (fun row => escapeChars row.1 == k) = true <;>
      simp [hrow, hz, hany, List.any_cons]

theorem countP_buildSpec (rows : List (List Char × List Char)) (k : List Char) :
    List.countP (fun kv => kv.1 == k) (buildSpec rows) =
      if rows.any (fun row => escapeChars row.1 == k) = true then 1 else 0 := by
  unfold buildSpec
  rw [countP_buildSpec_fold]
  simp

theorem getLast?_cons_eq {α : Type} : ∀ (l : List α) (a : α),
    (a :: l).getLast? =
      match l.getLast? with
      | some x => some x
      | none => some a := by
  intro l
  induction l with
  | nil => intro a; rfl
  | cons b l' ih =>
    intro a
    rw [List.getLast?_cons_cons, ih b]
    cases hl : l'.getLast? with
    | none => rfl
    | some x => rfl

theorem lookupD_buildSpec_fold :
    ∀ (rows : List (List Char × List Char)) (d : List (List Char × PyVal)) (k : List Char),
    lookupD (rows.foldl specStep d) k =
      match (rows.filter (fun row => escapeChars row.1 == k)).getLast? with
      | some row => some (inferSpecValue (escapeChars row.1) row.2)
      | none => lookupD d k := by
  intro rows
  induction rows with
  | nil => intro d k; rfl
  | cons row rows ih =>
    intro d k
    rw [List.foldl_cons, ih (specStep d row) k]
    by_cases hrow : (escapeChars row.1 == k) = true
    · rw [filter_cons_pos (fun row : List Char × List Char => escapeChars row.1 == k)
        row rows hrow]
      rw [getLast?_cons_eq]
      cases hfl : (rows.filter (fun row => escapeChars row.1 == k)).getLast? with
      | some x => rfl
      | none =>
        have hkeq : escapeChars row.1 = k := eq_of_beq hrow
        show lookupD (specStep d row) k = some (inferSpecValue (escapeChars row.1) row.2)
        unfold specStep
        rw [hkeq]
        exact lookupD_dictInsert_self d k _
    · rw [filter_cons_neg (fun row : List Char × List Char => escapeChars row.1 == k)
        row rows (by simpa using hrow)]
      have hother : lookupD (specStep d row) k = lookupD d k := by
        unfold specStep
        exact lookupD_dictInsert_other d _ k _ (by simpa using hrow)
      rw [hother]

/-- Claim C10: when the specification table of a detail document has two or
more rows sharing a label, the spec map of the extracted record has exactly
one entry under that (escaped) label, and it holds the inferred value of
the last such row in document order; earlier values are discarded. -/
theorem c10_duplicate_label_last_wins (url doc : List Char) (rec : Record) (k : List Char)
    (hex : extract_article_data url doc = some rec)
    (hdup : 2 ≤ ((parseSpecRows doc).filter (fun row => escapeChars row.1 == k)).length) :
    List.countP (fun kv => kv.1 == k) rec.spec = 1 ∧
    lookupD rec.spec k =
      (((parseSpecRows doc).filter (fun row => escapeChars row.1 == k)).getLast?).map
        (fun row => inferSpecValue (escapeChars row.1) row.2) := by
  have hspec : rec.spec = buildSpec (parseSpecRows doc) := by
    unfold extract_article_data at hex
    cases hA : searchPat matchNameAt doc with
    | none => rw [hA] at hex; exact Option.noConfusion hex
    | some nm =>
      rw [hA] at hex
      cases hB : searchPat matchPriceAt doc with
      | none => rw [hB] at hex; exact Option.noConfusion hex
      | some pds =>
        rw [hB] at hex
        cases hC : searchPat matchValueAt doc with
        | none => rw [hC] at hex; exact Option.noConfusion hex
        | some rts =>
          rw [hC] at hex
          have hex2 : (match pyIntOfChars rts with
            | none => none
            | some rt =>
              some { url := url, name := nm, price := digitsVal pds, rating := rt,
                     spec := buildSpec (parseSpecRows doc) } : Option Record) = some rec := hex
          cases hD : pyIntOfChars rts with
          | none => rw [hD] at hex2; exact Option.noConfusion hex2
          | some rt =>
            rw [hD] at hex2
            have hrec := Option.some.inj hex2
            rw [← hrec]
  constructor
  · rw [hspec, countP_buildSpec]
    have hne : ((parseSpecRows doc).filter (fun row => escapeChars row.1 == k)) ≠ [] := by
      intro h0
      rw [h0] at hdup
      simp at hdup
    have hany : (parseSpecRows doc).any (fun row => escapeChars row.1 == k) = true := by
      rw [List.any_eq_true]
      obtain ⟨x, hx⟩ := List.exists_mem_of_ne_nil _ hne
      have hmf := List.mem_filter.mp hx
      exact ⟨x, hmf.1, hmf.2⟩
    rw [if_pos hany]
  · rw [hspec]
    unfold buildSpec
    rw [lookupD_buildSpec_fold]
    cases hfl : ((parseSpecRows doc).filter (fun row => escapeChars row.1 == k)).getLast? with
    | none => rfl
    | some row => rfl

set_option maxRecDepth 100000 in
theorem c10_duplicate_label_witness :
    List.countP (fun kv => kv.1 == ("A".data)) recW.spec = 1 ∧
    lookupD recW.spec ("A".data) =
      (((parseSpecRows docW).filter (fun row => escapeChars row.1 == ("A".data))).getLast?).map
        (fun row => inferSpecValue (escapeChars row.1) row.2) :=
  c10_duplicate_label_last_wins ("u".data) docW recW ("A".data) (by rfl) (by decide)

/-- Claim C7: a discovered URL already present in the store
(matching-document count exactly one) is skipped without extraction or
insertion; hence a store already containing every corpus URL gains zero
records from a crawl, and the whole build phase runs only when the store
count is zero, so a populated store skips rebuilding. -/
theorem c7_idempotent_build (extract : List Char → Record) (urls : List (List Char))
    (store : List Record) :
    (∀ (st : List Record) (u : List Char),
      st.countP (fun r => r.url == u) = 1 → build_step extract st u = st) ∧
    ((∀ u ∈ urls, store.countP (fun r => r.url == u) = 1) →
      build_db extract urls store = store) ∧
    (store.length ≠ 0 → main_build extract urls store = store) := by
  refine ⟨?_, ?_, ?_⟩
  · intro st u hcount
    unfold build_step
    rw [if_pos hcount]
  · intro hall
    unfold build_db
    induction urls with
    | nil => rfl
    | cons u rest ih =>
      rw [List.foldl_cons]
      have hu : store.countP (fun r => r.url == u) = 1 := hall u (List.mem_cons_self u rest)
      have hstep : build_step extract store u = store := by
        unfold build_step
        rw [if_pos hu]
      rw [hstep]
      exact ih (fun x hx => hall x (List.mem_cons_of_mem u hx))
  · intro hlen
    unfold main_build
    rw [if_neg hlen]

theorem c7_idempotent_build_witness :
    build_db extractW [("u".data)] [recW0] = [recW0] ∧
      main_build extractW [("u".data)] [recW0] = [recW0] :=
  ⟨(c7_idempotent_build extractW [("u".data)] [recW0]).2.1 (by decide),
   (c7_idempotent_build extractW [("u".data)] [recW0]).2.2 (by decide)⟩

theorem calc_count_aux (rt b : Int) : ∀ records : List Record,
    calc_rating_price_frequency records (rt, b) =
      records.countP (fun r => decide (r.rating = rt ∧ bucketOf BANDWIDTH r.price = b)) := by
  intro records
  induction records with
  | nil => rfl
  | cons r rs ih =>
    unfold calc_rating_price_frequency at ih ⊢
    simp only [List.map_cons]
    rw [List.countP_cons]
    by_cases h : r.rating = rt ∧ bucketOf BANDWIDTH r.price = b
    · have hpair : ((r.rating, bucketOf BANDWIDTH r.price) : Int × Int) = (rt, b) := by
        rw [h.1, h.2]
      rw [filter_cons_pos (fun e : (Int × Int) × Nat => decide (e.1 = (rt, b)))
        ((r.rating, bucketOf BANDWIDTH r.price), 1) _ (by simp [hpair])]
      simp only [List.map_cons, List.sum_cons]
      rw [ih]
      have hdec : decide (r.rating = rt ∧ bucketOf BANDWIDTH r.price = b) = true := by
        simp [h.1, h.2]
      rw [hdec]
      simp [Nat.add_comm]
    · have hpair : ¬(((r.rating, bucketOf BANDWIDTH r.price) : Int × Int) = (rt, b)) := by
        intro he
        apply h
        exact ⟨congrArg Prod.fst he, congrArg Prod.snd he⟩
      rw [filter_cons_neg (fun e : (Int × Int) × Nat => decide (e.1 = (rt, b)))
        ((r.rating, bucketOf BANDWIDTH r.price), 1) _ (by simp [hpair])]
      rw [ih]
      have hdec : decide (r.rating = rt ∧ bucketOf BANDWIDTH r.price = b) = false := by
        simp only [decide_eq_false_iff_not]
        exact h
      rw [hdec]
      simp

/-- Claim C3: the rating/price histogram counts records per
(rating, bucket) group where the bucket is the price divided by the
bucket width, rounded up, times the width; the width is the scope
constant 500; and prices 2499, 2500, 2501 fall in buckets 2500, 2500,
3000. -/
theorem c3_rating_price_histogram :
    (∀ (records : List Record) (rt b : Int),
      calc_rating_price_frequency records (rt, b) =
        records.countP (fun r => decide (r.rating = rt ∧ bucketOf BANDWIDTH r.price = b))) ∧
    BANDWIDTH = 500 ∧
    bucketOf 500 2499 = 2500 ∧ bucketOf 500 2500 = 2500 ∧ bucketOf 500 2501 = 3000 := by
  refine ⟨?_, rfl, ?_, ?_, ?_⟩
  · intro records rt b
    exact calc_count_aux rt b records
  · unfold bucketOf
    push_cast
    have h : (⌈(2499 : ℚ) / 500⌉ : Int) = 5 := by
      rw [Int.ceil_eq_iff]
      constructor
      · norm_num
      · norm_num
    rw [h]
    norm_num
  · unfold bucketOf
    push_cast
    norm_num
  · unfold bucketOf
    push_cast
    have h : (⌈(2501 : ℚ) / 500⌉ : Int) = 6 := by
      rw [Int.ceil_eq_iff]
      constructor
      · norm_num
      · norm_num
    rw [h]
    norm_num

/-- Claim C1, code bug evidence: for the rating-5 group with prices
100, 200, 300 the program prints the standard-deviation column as
`sqrt(residual) / count` (line 139), which is `sqrt(20000) / 3`, about
47.14, and not the population standard deviation
`sqrt(residual / count) = sqrt(20000 / 3)`, about 81.65, that the spec
states. -/
theorem c1_price_spread_stddev_formula :
    price_spread_by_rating c1recs =
      [(5, 200, ((100 : Nat) : WithTop Nat), ((300 : Nat) : WithBot Nat),
        Real.sqrt 20000 / 3)] ∧
    Real.sqrt 20000 / 3 ≠ Real.sqrt (20000 / 3) := by
  constructor
  · have hd : distinctRatings c1recs = [5] := by rfl
    have hp : pricesOf c1recs 5 = [100, 200, 300] := by rfl
    have hm0 : price_mean [100, 200, 300] = (200 : ℚ) := by
      norm_num [price_mean, List.sum_cons, List.sum_nil]
    have hr : price_residual [100, 200, 300] = 20000 := by
      norm_num [price_residual, hm0, List.sum_cons, List.sum_nil]
    have hm : price_mean (pricesOf c1recs 5) = (200 : ℚ) := by rw [hp, hm0]
    have hmin : groupMin (pricesOf c1recs 5) = ((100 : Nat) : WithTop Nat) := by
      rw [hp]
      rfl
    have hmax : groupMax (pricesOf c1recs 5) = ((300 : Nat) : WithBot Nat) := by
      rw [hp]
      rfl
    have hsd : price_stddev (pricesOf c1recs 5) = Real.sqrt 20000 / 3 := by
      rw [hp]
      unfold price_stddev
      rw [hr]
      norm_num
    unfold price_spread_by_rating
    rw [hd]
    simp only [List.map_cons, List.map_nil]
    rw [hm, hmin, hmax, hsd]
  · intro heq
    have h1 : (0 : ℝ) ≤ 20000 := by norm_num
    have h2 : (0 : ℝ) ≤ 20000 / 3 := by norm_num
    have hsq := congrArg (fun x : ℝ => x ^ 2) heq
    simp only [div_pow, Real.sq_sqrt h1, Real.sq_sqrt h2] at hsq
    norm_num at hsq

/-- Claim C6, counterexample: on the empty corpus the per-rating spread
report returns normally with an empty list of rows, and the price-range
aggregation fails with an index error when it takes the first result
document; neither raises an EmptyCorpusError, which does not exist in
the program. -/
theorem c6_empty_counterexample :
    price_spread_by_rating [] = [] ∧
      get_price_range [] = Except.error ("IndexError".data) :=
  ⟨rfl, rfl⟩

/-- Claim C6 as amended: on an empty corpus, the price range fails with
an index error while the per-rating statistics, the distinct-key report
and the histogram all return normally with empty results; no dedicated
empty-corpus error exists. -/
theorem c6_empty_behavior :
    get_price_range [] = Except.error ("IndexError".data) ∧
    price_spread_by_rating [] = [] ∧
    find_distinct_specs [] = [] ∧
    ∀ key : Int × Int, calc_rating_price_frequency [] key = 0 :=
  ⟨rfl, rfl, rfl, fun _ => rfl⟩
